import Mathlib

/-!
Verification of the BBTXT data layer (`src/caffe/src/caffe/layers/bbtxt_data_layer.cpp`).

The development shallowly embeds the layer's pure computational content:

* `_loadBBTXTFile` (annotation parsing) over an abstract list of already
  split 7-field lines (the C++ code checks the field count and the existence
  of the referenced image file before any state change; those fatal checks
  are preconditions here, expressed as the well-formedness hypotheses of the
  theorems).  `Dtype` values (C++ floats, filled by `std::stof`) are modelled
  as exact rationals.  A freshly allocated caffe blob is zero-filled on first
  CPU access, so the 20 x 5 annotation block starts as all zeros.
* the geometry of the box branch of `_transformImage`: crop-size computation
  (`double`/`float` arithmetic modelled exactly over `ℚ`, with the C++
  float-to-int conversions modelled as truncation toward zero), the bounds of
  the two `uniform_int_distribution` draws, the border padding, and the
  bounding-box remapping loop.
* the normalization loop writing the planar float buffer.
* the cursor/reshuffle bookkeeping of `load_batch`.

The image-level OpenCV operations (`cv::resize`, `cv::copyMakeBorder`,
`cv::Mat::operator()`) are kept abstract: the claims quantify over the pixel
contents they produce.
-/

/-- One stored annotation row, `[label, xmin, ymin, xmax, ymax]`
(`Dtype` values modelled as exact rationals). -/
structure BBRow where
  label : ℚ
  xmin : ℚ
  ymin : ℚ
  xmax : ℚ
  ymax : ℚ
deriving DecidableEq, Repr

/-- One annotation line after `boost::split`:
`[filename label confidence xmin ymin xmax ymax]`, numeric fields parsed. -/
structure BBLine where
  filename : String
  label : ℚ
  conf : ℚ
  xmin : ℚ
  ymin : ℚ
  xmax : ℚ
  ymax : ℚ
deriving DecidableEq, Repr

/-- `#define MAX_NUM_BBS_PER_IMAGE 20`. -/
def MAX_NUM_BBS_PER_IMAGE : Nat := 20

/-- A zero row: caffe's `SyncedMemory` zero-fills a fresh blob on first CPU
access, so unused slots of the 20 x 5 annotation blob hold zeros. -/
def zeroRow : BBRow := ⟨0, 0, 0, 0, 0⟩

/-- The freshly allocated `Blob<Dtype>(MAX_NUM_BBS_PER_IMAGE, 5, 1, 1)`. -/
def emptyAnnot : List BBRow := List.replicate MAX_NUM_BBS_PER_IMAGE zeroRow

/-- The stored row of a line: fields `data[1], data[3], data[4], data[5],
data[6]` (`data[2]`, the confidence, is not stored). -/
def rowOfLine (ln : BBLine) : BBRow := ⟨ln.label, ln.xmin, ln.ymin, ln.xmax, ln.ymax⟩

/-- Apply `f` to the last element of a list (`_images.back()`). -/
def modifyLast (f : α → α) : List α → List α
  | [] => []
  | [a] => [f a]
  | a :: b :: l => a :: modifyLast f (b :: l)

/-- `bb_position[0] = Dtype(-1.0f)`: overwrite only the label entry of row
`i`, leaving the other four entries of that row as they are. -/
def setRowLabel (i : Nat) (v : ℚ) (rows : List BBRow) : List BBRow :=
  rows.set i { rows.getD i zeroRow with label := v }

/-- Parser state of `_loadBBTXTFile`: the `_images` vector (pairs of filename
and 20-row annotation block), `current_filename`, and the row counter `i`. -/
structure ParseState where
  images : List (String × List BBRow)
  current : String
  i : Nat
deriving Repr

/-- The `if (current_filename != data[0])` block of `_loadBBTXTFile`:
finalize the previous record with a sentinel label when it has a free slot,
create the new record, reset the counter. -/
def newImageStep (st : ParseState) (ln : BBLine) : ParseState :=
  if st.current ≠ ln.filename then
    { images :=
        (if 0 < st.images.length ∧ st.i < MAX_NUM_BBS_PER_IMAGE then
          modifyLast (fun r => (r.1, setRowLabel st.i (-1) r.2)) st.images
        else st.images) ++ [(ln.filename, emptyAnnot)],
      current := ln.filename,
      i := 0 }
  else st

/-- The `if (i < MAX_NUM_BBS_PER_IMAGE)` block of `_loadBBTXTFile`: write the
bounding-box info into row `i` of the last record, else drop the line with a
warning. -/
def writeStep (st : ParseState) (ln : BBLine) : ParseState :=
  if st.i < MAX_NUM_BBS_PER_IMAGE then
    { st with
      images := modifyLast (fun r => (r.1, r.2.set st.i (rowOfLine ln))) st.images,
      i := st.i + 1 }
  else st

/-- One iteration of the `while (std::getline(infile, line))` loop. -/
def parseStep (st : ParseState) (ln : BBLine) : ParseState :=
  writeStep (newImageStep st ln) ln

/-- `_loadBBTXTFile`: fold the loop body over the lines of the file, starting
from an empty `_images`, `current_filename = ""` and `i = 0`, and return the
`_images` vector. -/
def loadBBTXTFile (lines : List BBLine) : List (String × List BBRow) :=
  (lines.foldl parseStep ⟨[], "", 0⟩).images

/-! Specification-side description of the parser output, used to state the
claims: contiguous runs of equal filenames, and the record each run yields. -/

/-- Contiguous grouping: extend the open run `(cur, g)` through `ls`. -/
def continueRuns (cur : String) (g : List BBLine) : List BBLine → List (String × List BBLine)
  | [] => [(cur, g)]
  | l :: ls =>
    if l.filename = cur then continueRuns cur (g ++ [l]) ls
    else (cur, g) :: continueRuns l.filename [l] ls

/-- Split a line list into contiguous runs of equal filenames. -/
def groupRuns : List BBLine → List (String × List BBLine)
  | [] => []
  | l :: ls => continueRuns l.filename [l] ls

/-- Write the rows of a run into an annotation block starting at row `i`,
dropping rows once the counter reaches `MAX_NUM_BBS_PER_IMAGE`. -/
def writeBoxesAux : Nat → List BBRow → List BBLine → List BBRow
  | _, rows, [] => rows
  | i, rows, l :: ls =>
    if i < MAX_NUM_BBS_PER_IMAGE then writeBoxesAux (i + 1) (rows.set i (rowOfLine l)) ls
    else rows

/-- The annotation block a run fills into a fresh record (no finalization). -/
def writeBoxes (g : List BBLine) : List BBRow := writeBoxesAux 0 emptyAnnot g

/-- The annotation block of a run after the finalization performed when the
next filename is seen: a `-1` sentinel label at the first unused row, if any
row is unused. -/
def finalizeRows (g : List BBLine) : List BBRow :=
  if g.length < MAX_NUM_BBS_PER_IMAGE then setRowLabel g.length (-1) (writeBoxes g)
  else writeBoxes g

/-- The records produced from a run list: every run but the last is finalized
when its successor's first line arrives; the last run is never finalized
(the loop ends at end of file without writing a sentinel). -/
def recordsOf : List (String × List BBLine) → List (String × List BBRow)
  | [] => []
  | [(n, g)] => [(n, writeBoxes g)]
  | (n, g) :: r :: rs => (n, finalizeRows g) :: recordsOf (r :: rs)

/-- Two lines that agree on every field except possibly the confidence. -/
def sameExceptConf (l₁ l₂ : BBLine) : Prop :=
  l₁.filename = l₂.filename ∧ l₁.label = l₂.label ∧ l₁.xmin = l₂.xmin ∧
    l₁.ymin = l₂.ymin ∧ l₁.xmax = l₂.xmax ∧ l₁.ymax = l₂.ymax

instance (l₁ l₂ : BBLine) : Decidable (sameExceptConf l₁ l₂) := by
  unfold sameExceptConf; infer_instance

/-! Geometry of the box branch of `_transformImage`. -/

/-- C++ conversion of a floating-point value to `int`: truncation toward
zero (the `double`/`float` arithmetic itself is modelled exactly on `ℚ`). -/
def ratTrunc (q : ℚ) : ℤ := if 0 ≤ q then ⌊q⌋ else ⌈q⌉

/-- `numBBs`: the index of the first row whose label is `-1`, or the number
of rows when there is none. -/
def numBBs : List BBRow → Nat
  | [] => 0
  | r :: rs => if r.label = -1 then 0 else numBBs rs + 1

/-- `w = bb_data[3] - bb_data[1]` of a selected box. -/
def bbW (r : BBRow) : ℚ := r.xmax - r.xmin

/-- `h = bb_data[4] - bb_data[2]` of a selected box. -/
def bbH (r : BBRow) : ℚ := r.ymax - r.ymin

/-- `size = std::max(w, h)`. -/
def bbSize (r : BBRow) : ℚ := max (bbW r) (bbH r)

/-- `const int crop_width = double(width) / reference_size * size;`. -/
def cropWidth (width refSize : ℤ) (size : ℚ) : ℤ :=
  ratTrunc ((width : ℚ) / (refSize : ℚ) * size)

/-- `const int crop_height = double(height) / reference_size * size;`. -/
def cropHeight (height refSize : ℤ) (size : ℚ) : ℤ :=
  ratTrunc ((height : ℚ) / (refSize : ℚ) * size)

/-- Lower constructor argument of `distx`: `int(x + w - crop_width)`. -/
def cropXLo (r : BBRow) (cw : ℤ) : ℤ := ratTrunc (r.xmin + bbW r - (cw : ℚ))

/-- Upper constructor argument of `distx`: `int(x)`. -/
def cropXHi (r : BBRow) : ℤ := ratTrunc r.xmin

/-- Lower constructor argument of `disty`: `int(y + h - crop_height)`. -/
def cropYLo (r : BBRow) (ch : ℤ) : ℤ := ratTrunc (r.ymin + bbH r - (ch : ℚ))

/-- Upper constructor argument of `disty`: `int(y)`. -/
def cropYHi (r : BBRow) : ℤ := ratTrunc r.ymin

/-- `x_scaling = float(width) / crop_width` (and its `y` analogue). -/
def xScaling (width cw : ℤ) : ℚ := (width : ℚ) / (cw : ℚ)

/-- `if (crop_x < 0) border_left = -crop_x;`. -/
def borderLeft (cropX : ℤ) : ℤ := if cropX < 0 then -cropX else 0

/-- `if (crop_y < 0) border_top = -crop_y;`. -/
def borderTop (cropY : ℤ) : ℤ := if cropY < 0 then -cropY else 0

/-- `if (crop_x + crop_width > cv_img.cols) border_right = crop_x + crop_width - cv_img.cols;`. -/
def borderRight (cropX cw cols : ℤ) : ℤ :=
  if cropX + cw > cols then cropX + cw - cols else 0

/-- `if (crop_y + crop_height > cv_img.rows) border_bottom = crop_y + crop_height - cv_img.rows;`. -/
def borderBottom (cropY ch rows : ℤ) : ℤ :=
  if cropY + ch > rows then cropY + ch - rows else 0

/-- One step of the `for (int b = 0; b < num_bbs; ++b)` update loop: align
the four coordinates with the crop origin, then scale them. -/
def remapRow (cropX cropY : ℤ) (sx sy : ℚ) (r : BBRow) : BBRow :=
  ⟨r.label,
   (r.xmin - (cropX : ℚ)) * sx,
   (r.ymin - (cropY : ℚ)) * sy,
   (r.xmax - (cropX : ℚ)) * sx,
   (r.ymax - (cropY : ℚ)) * sy⟩

/-- Apply `f` to the first `n` elements of a list, leaving the rest as is. -/
def modifyFirst (f : α → α) : Nat → List α → List α
  | 0, l => l
  | _ + 1, [] => []
  | n + 1, a :: l => f a :: modifyFirst f n l

/-- The bounding-box update loop of the box branch: rows `0 ≤ b < numBBs`
are aligned with the crop origin and scaled; the remaining rows are left
untouched. -/
def updateBBoxes (cropX cropY width height cw ch : ℤ) (labels : List BBRow) : List BBRow :=
  modifyFirst (remapRow cropX cropY (xScaling width cw) (xScaling height ch))
    (numBBs labels) labels

/-! The normalization loop of `_transformImage`. -/

/-- `(ptr[img_index] - Dtype(128.0f)) / Dtype(128.0f)` for a `uchar` value. -/
def normalizePixel (v : Nat) : ℚ := ((v : ℚ) - 128) / 128

/-- `const int top_index = (c * height + i) * width + j;`. -/
def planarIndex (height width i j c : Nat) : Nat := (c * height + i) * width + j

/-- The iteration domain of the normalization loop, in loop order: row `i`,
column `j`, channel `c`; at `(i, j, c)` the running `img_index` equals
`3 * j + c`. -/
def pixelTriples (height width : Nat) : List (Nat × Nat × Nat) :=
  (List.range height).flatMap fun i =>
    (List.range width).flatMap fun j =>
      (List.range 3).map fun c => (i, j, c)

/-- The normalization loop: write
`(pix i (3 * j + c) - 128) / 128` to `top_index = (c * height + i) * width + j`
of the output buffer, for every row `i`, column `j` and channel `c`.
`pix i k` is byte `k` of row `i` of the interleaved cropped image. -/
def writePixels (height width : Nat) (pix : Nat → Nat → Nat) (buf : Nat → ℚ) : Nat → ℚ :=
  (pixelTriples height width).foldl
    (fun b t =>
      Function.update b (planarIndex height width t.1 t.2.1 t.2.2)
        (normalizePixel (pix t.1 (3 * t.2.1 + t.2.2))))
    buf

/-- The pixel pipeline of `_transformImage` after the branch on
`transformed_label.cpu_data()[0] == -1`: both branches feed their resampled
image (kept abstract here) through the same normalization loop. `resized`
is the plain resize of the no-box branch, `cropped` the padded-cropped-resized
image of the box branch. -/
def transformImagePixels (height width : Nat) (labels : List BBRow)
    (resized cropped : Nat → Nat → Nat) (buf : Nat → ℚ) : Nat → ℚ :=
  writePixels height width
    (if (labels.headD zeroRow).label = -1 then resized else cropped) buf

/-! Cursor bookkeeping of `load_batch`. -/

/-- State observed while `load_batch` runs: the `_i_global` cursor, the
number of `_shuffleImages` calls made so far, and the list of indices at
which records were read. -/
structure BatchState where
  iGlobal : Nat
  shuffleCount : Nat
  reads : List Nat
deriving DecidableEq, Repr

/-- One iteration of the batch loop: read the record at `_i_global`,
increment `_i_global`, and on reaching the dataset size reshuffle (when
enabled) and restart the counter from the beginning. -/
def loadOne (n : Nat) (shuf : Bool) (st : BatchState) : BatchState :=
  let st₁ : BatchState :=
    { st with reads := st.reads ++ [st.iGlobal], iGlobal := st.iGlobal + 1 }
  if n ≤ st₁.iGlobal then
    { st₁ with
      shuffleCount := st₁.shuffleCount + (if shuf then 1 else 0),
      iGlobal := 0 }
  else st₁

/-- The `for (int b = 0; b < batch_size; ++b)` loop of `load_batch`. -/
def loadBatch (n : Nat) (shuf : Bool) (batchSize : Nat) (st : BatchState) : BatchState :=
  (loadOne n shuf)^[batchSize] st

/-! Shuffling. -/

/-- Modelled from the spec: the seeded generator supplied to the shuffle
(`caffe::rng_t`, seeded in `DataLayerSetUp`); the generator implementation is
not part of the repository sources, so it is modelled as a deterministic
linear congruential step on a seed. -/
def lcgNext (s : Nat) : Nat := (1103515245 * s + 12345) % 4294967296

/-- Modelled from the spec: `_shuffleImages` performs an in-place uniform
Fisher-Yates permutation of the record sequence driven by the supplied
generator (the `shuffle` helper itself is framework code outside the
repository sources).  Each step draws an index `j` below the current length,
moves that element to the front, and recurses on the remainder. -/
def shuffleImages : Nat → List α → List α
  | _, [] => []
  | s, a :: l =>
    (a :: l).getD (lcgNext s % (a :: l).length) a ::
      shuffleImages (lcgNext s) ((a :: l).eraseIdx (lcgNext s % (a :: l).length))
termination_by _ l => l.length
decreasing_by
  have h : lcgNext s % (l.length + 1) < l.length + 1 := Nat.mod_lt _ (by omega)
  simp only [List.length_eraseIdx, List.length_cons, if_pos h]
  omega

/-! Concrete fixtures used by the counterexamples and witnesses below. -/

/-- A one-box annotation line for `img1.jpg`. -/
def lineImg1 : BBLine := ⟨"img1.jpg", 2, 1, 10, 10, 50, 50⟩

/-- A one-box annotation line for `img2.jpg`. -/
def lineImg2 : BBLine := ⟨"img2.jpg", 3, 1, 5, 5, 15, 15⟩

/-- An annotation file in which `img1.jpg` appears on 21 contiguous lines
(one more than `MAX_NUM_BBS_PER_IMAGE`), followed by one line for
`img2.jpg`. -/
def overfullLines : List BBLine :=
  ((List.range 21).map fun k => ⟨"img1.jpg", (k : ℚ), 1, 0, 0, 10, 10⟩) ++ [lineImg2]

/-- A selected bounding box with fractional `xmin`/`xmax` (`std::stof` can
produce such values): `xmin = 10.5`, `xmax = 15.5`, `ymin = 10`, `ymax = 15`. -/
def fracBox : BBRow := ⟨1, 21/2, 10, 31/2, 15⟩

/-- The spec example box with `w = h = 40`. -/
def box40 : BBRow := ⟨1, 0, 0, 40, 40⟩

/-- A box with `w = h = 50`, for which the crop really is 200 x 200 at
`referenceSize = 50`, `targetW = targetH = 200`. -/
def box50 : BBRow := ⟨1, 0, 0, 50, 50⟩

/-- An integral selected box, `[10, 10, 15, 15]`. -/
def intBox : BBRow := ⟨1, 10, 10, 15, 15⟩

/-- A label blob with two real boxes followed by a sentinel row. -/
def twoBoxLabels : List BBRow := [⟨1, 0, 0, 10, 10⟩, ⟨2, 30, 30, 44, 44⟩, ⟨-1, 0, 0, 0, 0⟩]


/-! ### Lemmas about the parser -/

theorem modifyLast_append (f : α → α) (l : List α) (a : α) :
    modifyLast f (l ++ [a]) = l ++ [f a] := by
  induction l with
  | nil => rfl
  | cons x l ih =>
    cases l with
    | nil => rfl
    | cons y l =>
      simp only [List.cons_append, modifyLast, List.append_eq] at ih ⊢
      rw [ih]

theorem writeBoxesAux_append_ge (g : List BBLine) :
    ∀ (i : Nat) (rows : List BBRow) (l : BBLine),
    MAX_NUM_BBS_PER_IMAGE ≤ i + g.length →
    writeBoxesAux i rows (g ++ [l]) = writeBoxesAux i rows g := by
  induction g with
  | nil =>
    intro i rows l h
    simp only [List.length_nil, Nat.add_zero] at h
    simp only [List.nil_append, writeBoxesAux]
    rw [if_neg (by omega)]
  | cons a g ih =>
    intro i rows l h
    simp only [List.cons_append, writeBoxesAux, List.append_eq]
    by_cases hi : i < MAX_NUM_BBS_PER_IMAGE
    · rw [if_pos hi, if_pos hi, ih]
      simp only [List.length_cons] at h
      omega
    · rw [if_neg hi, if_neg hi]

theorem writeBoxesAux_append_lt (g : List BBLine) :
    ∀ (i : Nat) (rows : List BBRow) (l : BBLine),
    i + g.length < MAX_NUM_BBS_PER_IMAGE →
    writeBoxesAux i rows (g ++ [l])
      = (writeBoxesAux i rows g).set (i + g.length) (rowOfLine l) := by
  induction g with
  | nil =>
    intro i rows l h
    simp only [List.length_nil, Nat.add_zero] at h ⊢
    simp only [List.nil_append, writeBoxesAux]
    rw [if_pos h]
  | cons a g ih =>
    intro i rows l h
    simp only [List.length_cons] at h
    simp only [List.cons_append, writeBoxesAux, List.append_eq]
    rw [if_pos (by omega), if_pos (by omega), ih (i + 1) _ l (by omega)]
    have he : i + (g.length + 1) = i + 1 + g.length := by omega
    rw [List.length_cons, he]

theorem writeBoxes_append_lt (g : List BBLine) (l : BBLine)
    (h : g.length < MAX_NUM_BBS_PER_IMAGE) :
    writeBoxes (g ++ [l]) = (writeBoxes g).set g.length (rowOfLine l) := by
  have := writeBoxesAux_append_lt g 0 emptyAnnot l (by omega)
  simpa [writeBoxes] using this

theorem writeBoxes_append_ge (g : List BBLine) (l : BBLine)
    (h : MAX_NUM_BBS_PER_IMAGE ≤ g.length) :
    writeBoxes (g ++ [l]) = writeBoxes g := by
  have := writeBoxesAux_append_ge g 0 emptyAnnot l (by omega)
  simpa [writeBoxes] using this

theorem continueRuns_ne_nil (ls : List BBLine) :
    ∀ (cur : String) (g : List BBLine), continueRuns cur g ls ≠ [] := by
  induction ls with
  | nil => intro cur g; simp [continueRuns]
  | cons l ls ih =>
    intro cur g
    simp only [continueRuns]
    split
    · exact ih _ _
    · simp

theorem recordsOf_cons (n : String) (g : List BBLine)
    (rest : List (String × List BBLine)) (h : rest ≠ []) :
    recordsOf ((n, g) :: rest) = (n, finalizeRows g) :: recordsOf rest := by
  cases rest with
  | nil => exact absurd rfl h
  | cons r rs => rfl

theorem parseStep_same (fin : List (String × List BBRow)) (cur : String)
    (g : List BBLine) (l : BBLine) (hf : l.filename = cur) :
    parseStep ⟨fin ++ [(cur, writeBoxes g)], cur, min MAX_NUM_BBS_PER_IMAGE g.length⟩ l
      = ⟨fin ++ [(cur, writeBoxes (g ++ [l]))], cur,
         min MAX_NUM_BBS_PER_IMAGE (g ++ [l]).length⟩ := by
  have hnew : newImageStep ⟨fin ++ [(cur, writeBoxes g)], cur,
      min MAX_NUM_BBS_PER_IMAGE g.length⟩ l
      = ⟨fin ++ [(cur, writeBoxes g)], cur, min MAX_NUM_BBS_PER_IMAGE g.length⟩ := by
    simp only [newImageStep]
    rw [if_neg]
    simp [hf]
  simp only [parseStep, hnew, writeStep]
  by_cases hlen : g.length < MAX_NUM_BBS_PER_IMAGE
  · rw [if_pos (by simp; omega)]
    have hmin : min MAX_NUM_BBS_PER_IMAGE g.length = g.length := by omega
    simp only [hmin, modifyLast_append, writeBoxes_append_lt g l hlen,
      List.length_append, List.length_cons, List.length_nil]
    have : min MAX_NUM_BBS_PER_IMAGE (g.length + 1) = g.length + 1 := by
      simp [MAX_NUM_BBS_PER_IMAGE] at hlen ⊢; omega
    simp [this]
  · rw [if_neg (by simp; omega)]
    have hge : MAX_NUM_BBS_PER_IMAGE ≤ g.length := by omega
    have : min MAX_NUM_BBS_PER_IMAGE g.length = MAX_NUM_BBS_PER_IMAGE := by omega
    simp only [writeBoxes_append_ge g l hge, this, List.length_append,
      List.length_cons, List.length_nil]
    have h2 : min MAX_NUM_BBS_PER_IMAGE (g.length + 1) = MAX_NUM_BBS_PER_IMAGE := by
      omega
    simp [h2]

theorem parseStep_new (fin : List (String × List BBRow)) (cur : String)
    (g : List BBLine) (l : BBLine) (hf : l.filename ≠ cur) :
    parseStep ⟨fin ++ [(cur, writeBoxes g)], cur, min MAX_NUM_BBS_PER_IMAGE g.length⟩ l
      = ⟨(fin ++ [(cur, finalizeRows g)]) ++ [(l.filename, writeBoxes [l])], l.filename,
         min MAX_NUM_BBS_PER_IMAGE [l].length⟩ := by
  have hnew : newImageStep ⟨fin ++ [(cur, writeBoxes g)], cur,
      min MAX_NUM_BBS_PER_IMAGE g.length⟩ l
      = ⟨(fin ++ [(cur, finalizeRows g)]) ++ [(l.filename, emptyAnnot)], l.filename, 0⟩ := by
    simp only [newImageStep]
    rw [if_pos (fun h => hf h.symm)]
    by_cases hlen : g.length < MAX_NUM_BBS_PER_IMAGE
    · rw [if_pos ⟨by simp, by omega⟩]
      have hmin : min MAX_NUM_BBS_PER_IMAGE g.length = g.length := by omega
      simp only [hmin, modifyLast_append, finalizeRows, if_pos hlen]
    · rw [if_neg (by simp; omega)]
      simp only [finalizeRows, if_neg hlen]
  simp only [parseStep, hnew, writeStep]
  rw [if_pos (by simp [MAX_NUM_BBS_PER_IMAGE])]
  simp only [modifyLast_append]
  have hwb : emptyAnnot.set 0 (rowOfLine l) = writeBoxes [l] := by
    simp [writeBoxes, writeBoxesAux, MAX_NUM_BBS_PER_IMAGE]
  simp [hwb, MAX_NUM_BBS_PER_IMAGE]

theorem parse_loop (lines : List BBLine) :
    ∀ (fin : List (String × List BBRow)) (cur : String) (g : List BBLine), g ≠ [] →
    (List.foldl parseStep
        ⟨fin ++ [(cur, writeBoxes g)], cur, min MAX_NUM_BBS_PER_IMAGE g.length⟩
        lines).images
      = fin ++ recordsOf (continueRuns cur g lines) := by
  induction lines with
  | nil =>
    intro fin cur g _
    simp [continueRuns, recordsOf]
  | cons l ls ih =>
    intro fin cur g hg
    rw [List.foldl_cons]
    by_cases hf : l.filename = cur
    · rw [parseStep_same fin cur g l hf, ih fin cur (g ++ [l]) (by simp)]
      simp only [continueRuns, if_pos hf]
    · rw [parseStep_new fin cur g l hf,
        ih (fin ++ [(cur, finalizeRows g)]) l.filename [l] (by simp)]
      simp only [continueRuns, if_neg hf]
      rw [recordsOf_cons cur g _ (continueRuns_ne_nil ls l.filename [l])]
      simp

theorem loadBBTXT_eq_recordsOf (lines : List BBLine)
    (hw : ∀ l ∈ lines, l.filename ≠ "") :
    loadBBTXTFile lines = recordsOf (groupRuns lines) := by
  cases lines with
  | nil => rfl
  | cons l ls =>
    have hl : l.filename ≠ "" := hw l (by simp)
    have hstep : parseStep ⟨[], "", 0⟩ l
        = ⟨[] ++ [(l.filename, writeBoxes [l])], l.filename,
           min MAX_NUM_BBS_PER_IMAGE [l].length⟩ := by
      simp only [parseStep, newImageStep]
      rw [if_pos (fun h => hl h.symm)]
      rw [if_neg (by simp)]
      simp only [writeStep]
      rw [if_pos (by simp [MAX_NUM_BBS_PER_IMAGE])]
      have hwb : emptyAnnot.set 0 (rowOfLine l) = writeBoxes [l] := by
        simp [writeBoxes, writeBoxesAux, MAX_NUM_BBS_PER_IMAGE]
      simp [modifyLast, hwb, MAX_NUM_BBS_PER_IMAGE]
    simp only [loadBBTXTFile, List.foldl_cons]
    rw [hstep]
    simp only [groupRuns]
    have hloop := parse_loop ls [] l.filename [l] (by simp)
    simp only [List.nil_append] at hloop ⊢
    exact hloop

theorem recordsOf_length (gs : List (String × List BBLine)) :
    (recordsOf gs).length = gs.length := by
  induction gs with
  | nil => rfl
  | cons p rest ih =>
    cases rest with
    | nil => cases p; rfl
    | cons q rs =>
      cases p with
      | mk n g =>
        rw [recordsOf_cons n g _ (by simp)]
        simp only [List.length_cons, ih]

theorem recordsOf_getD_overfull (gs : List (String × List BBLine)) :
    ∀ gi : Nat, MAX_NUM_BBS_PER_IMAGE ≤ ((gs.getD gi ("", [])).2).length →
    (recordsOf gs).getD gi ("", emptyAnnot)
      = ((gs.getD gi ("", [])).1, writeBoxes (gs.getD gi ("", [])).2) := by
  induction gs with
  | nil =>
    intro gi h
    simp [MAX_NUM_BBS_PER_IMAGE] at h
  | cons p rest ih =>
    intro gi h
    cases rest with
    | nil =>
      cases gi with
      | zero => cases p; simp [recordsOf]
      | succ k =>
        simp only [List.getD_cons_succ, List.getD_nil] at h
        simp [MAX_NUM_BBS_PER_IMAGE] at h
    | cons q rs =>
      cases p with
      | mk n g =>
        rw [recordsOf_cons n g _ (by simp)]
        cases gi with
        | zero =>
          simp only [List.getD_cons_zero] at h ⊢
          simp [finalizeRows, if_neg (by omega : ¬g.length < MAX_NUM_BBS_PER_IMAGE)]
        | succ k =>
          simp only [List.getD_cons_succ] at h ⊢
          exact ih k h

theorem writeBoxesAux_take (g : List BBLine) :
    ∀ (i : Nat) (rows : List BBRow),
    writeBoxesAux i rows g
      = writeBoxesAux i rows (g.take (MAX_NUM_BBS_PER_IMAGE - i)) := by
  induction g with
  | nil => intro i rows; simp
  | cons a g ih =>
    intro i rows
    by_cases hi : i < MAX_NUM_BBS_PER_IMAGE
    · have hs : MAX_NUM_BBS_PER_IMAGE - i = (MAX_NUM_BBS_PER_IMAGE - (i + 1)) + 1 := by
        omega
      rw [hs]
      simp only [List.take_succ_cons, writeBoxesAux, if_pos hi]
      exact ih (i + 1) _
    · have hz : MAX_NUM_BBS_PER_IMAGE - i = 0 := by omega
      rw [hz]
      simp only [List.take_zero, writeBoxesAux, if_neg hi]

theorem writeBoxes_take (g : List BBLine) :
    writeBoxes g = writeBoxes (g.take MAX_NUM_BBS_PER_IMAGE) := by
  simpa [writeBoxes] using writeBoxesAux_take g 0 emptyAnnot

theorem parseStep_conf_congr (st : ParseState) (l₁ l₂ : BBLine)
    (h : sameExceptConf l₁ l₂) : parseStep st l₁ = parseStep st l₂ := by
  obtain ⟨hf, hl, hx, hy, hX, hY⟩ := h
  have hrow : rowOfLine l₁ = rowOfLine l₂ := by
    simp [rowOfLine, hl, hx, hy, hX, hY]
  simp [parseStep, newImageStep, writeStep, hf, hrow]

/-- C2: at end of file, `_loadBBTXTFile` never finalizes the last record, so
for a file whose last record has fewer than 20 boxes, the entry after its
last real box keeps the blob's zero fill (label `0`), not the `-1` sentinel
the layer's own `numBBs` convention requires; a record that is followed by a
further filename does get the sentinel. -/
theorem C2_eof_no_sentinel :
    (((loadBBTXTFile [lineImg1]).getD 0 ("", emptyAnnot)).2.getD 1 zeroRow).label = 0 ∧
    (((loadBBTXTFile [lineImg1]).getD 0 ("", emptyAnnot)).2.getD 1 zeroRow).label ≠ -1 ∧
    (((loadBBTXTFile [lineImg1, lineImg2]).getD 0 ("", emptyAnnot)).2.getD 1 zeroRow).label
      = -1 := by
  decide

/-- C9: for any well-formed annotation file (7-field lines whose referenced
images exist, so no filename is empty), parsing is total and yields one
record per contiguous filename run, as described by `recordsOf`/`groupRuns`;
in particular a run longer than `MAX_NUM_BBS_PER_IMAGE` yields a record whose
annotation block is exactly the one filled from the first 20 lines of that
run, all later lines of the run being dropped, and every other record is the
one its own run yields. -/
theorem C9_overfull_truncates (lines : List BBLine)
    (hw : ∀ l ∈ lines, l.filename ≠ "") :
    loadBBTXTFile lines = recordsOf (groupRuns lines) ∧
    ∀ gi : Nat, MAX_NUM_BBS_PER_IMAGE < ((groupRuns lines).getD gi ("", [])).2.length →
      (loadBBTXTFile lines).getD gi ("", emptyAnnot)
        = (((groupRuns lines).getD gi ("", [])).1,
           writeBoxes (((groupRuns lines).getD gi ("", [])).2.take MAX_NUM_BBS_PER_IMAGE)) := by
  refine ⟨loadBBTXT_eq_recordsOf lines hw, ?_⟩
  intro gi hlen
  rw [loadBBTXT_eq_recordsOf lines hw,
    recordsOf_getD_overfull (groupRuns lines) gi (le_of_lt hlen), ← writeBoxes_take]

theorem C9_overfull_truncates_witness :
    (loadBBTXTFile overfullLines).length = 2 ∧
    (loadBBTXTFile overfullLines).getD 0 ("", emptyAnnot)
      = (((groupRuns overfullLines).getD 0 ("", [])).1,
         writeBoxes (((groupRuns overfullLines).getD 0 ("", [])).2.take
           MAX_NUM_BBS_PER_IMAGE)) := by
  have h := C9_overfull_truncates overfullLines (by decide)
  refine ⟨?_, h.2 0 (by decide)⟩
  rw [h.1]
  decide

/-- C10: the parsed dataset does not depend on the confidence field: two line
lists that agree on everything except confidences parse to identical record
lists (each stored row is built from the label and the four coordinates
only). -/
theorem C10_conf_never_stored (lines₁ lines₂ : List BBLine)
    (h : List.Forall₂ sameExceptConf lines₁ lines₂) :
    loadBBTXTFile lines₁ = loadBBTXTFile lines₂ := by
  have key : ∀ st : ParseState,
      lines₁.foldl parseStep st = lines₂.foldl parseStep st := by
    induction h with
    | nil => intro st; rfl
    | cons hl hrest ih =>
      intro st
      simp only [List.foldl_cons, parseStep_conf_congr st _ _ hl]
      exact ih _
  simp only [loadBBTXTFile, key]

theorem C10_conf_never_stored_witness :
    loadBBTXTFile [⟨"img1.jpg", 2, 1, 10, 10, 50, 50⟩]
      = loadBBTXTFile [⟨"img1.jpg", 2, 7/2, 10, 10, 50, 50⟩] :=
  C10_conf_never_stored _ _ (List.Forall₂.cons (by decide) List.Forall₂.nil)

/-! ### Padding, remapping and crop geometry -/

/-- C5: the box branch pads each side by exactly the crop window's overhang
beyond the source image bounds (left/top by `-cropX`/`-cropY` when negative,
right/bottom by the overhang beyond the image width/height), and the crop
rectangle at the adjusted origin `(cropX + borderLeft, cropY + borderTop)`
with size `(cropW, cropH)` always lies inside the padded image of size
`(cols + borderLeft + borderRight) x (rows + borderTop + borderBottom)`. -/
theorem C5_padding_contains_crop (cropX cropY cw ch cols rows : ℤ) :
    borderLeft cropX = max 0 (-cropX) ∧
    borderTop cropY = max 0 (-cropY) ∧
    borderRight cropX cw cols = max 0 (cropX + cw - cols) ∧
    borderBottom cropY ch rows = max 0 (cropY + ch - rows) ∧
    0 ≤ cropX + borderLeft cropX ∧
    0 ≤ cropY + borderTop cropY ∧
    cropX + borderLeft cropX + cw
      ≤ cols + borderLeft cropX + borderRight cropX cw cols ∧
    cropY + borderTop cropY + ch
      ≤ rows + borderTop cropY + borderBottom cropY ch rows := by
  unfold borderLeft borderTop borderRight borderBottom
  split_ifs <;> omega

theorem modifyFirst_length (f : α → α) :
    ∀ (n : Nat) (l : List α), (modifyFirst f n l).length = l.length := by
  intro n
  induction n with
  | zero => intro l; rfl
  | succ n ih =>
    intro l
    cases l with
    | nil => rfl
    | cons a l => simp [modifyFirst, ih]

theorem modifyFirst_getD_lt (f : α → α) (d : α) :
    ∀ (n b : Nat) (l : List α), b < n → b < l.length →
      (modifyFirst f n l).getD b d = f (l.getD b d) := by
  intro n
  induction n with
  | zero => intro b l hb _; omega
  | succ n ih =>
    intro b l hb hl
    cases l with
    | nil => simp at hl
    | cons a l =>
      cases b with
      | zero => rfl
      | succ b =>
        simpa [modifyFirst] using ih b l (by omega) (by simpa using hl)

theorem modifyFirst_getD_ge (f : α → α) (d : α) :
    ∀ (n b : Nat) (l : List α), n ≤ b →
      (modifyFirst f n l).getD b d = l.getD b d := by
  intro n
  induction n with
  | zero => intro b l _; rfl
  | succ n ih =>
    intro b l hb
    cases l with
    | nil => rfl
    | cons a l =>
      cases b with
      | zero => omega
      | succ b => simpa [modifyFirst] using ih b l (by omega)

theorem numBBs_le_length (labels : List BBRow) : numBBs labels ≤ labels.length := by
  induction labels with
  | nil => simp [numBBs]
  | cons r rs ih =>
    simp only [numBBs, List.length_cons]
    split
    · omega
    · omega

theorem numBBs_real (labels : List BBRow) :
    ∀ b : Nat, b < numBBs labels → (labels.getD b zeroRow).label ≠ -1 := by
  induction labels with
  | nil => intro b hb; simp [numBBs] at hb
  | cons r rs ih =>
    intro b hb
    simp only [numBBs] at hb
    by_cases hr : r.label = -1
    · rw [if_pos hr] at hb; omega
    · rw [if_neg hr] at hb
      cases b with
      | zero => simpa using hr
      | succ b => simpa using ih b (by omega)

/-- C4: the box-branch update loop leaves the length of the annotation list
unchanged and remaps every real (pre-sentinel) row — not only the selected
one — to exactly `(v - cropOrigin) * (target / cropSize)` on each coordinate
axis, with no clamping to the target rectangle and no filtering; rows at or
after the first sentinel are untouched. -/
theorem C4_remap_all_boxes (cropX cropY width height cw ch : ℤ)
    (labels : List BBRow) (b : Nat) :
    (updateBBoxes cropX cropY width height cw ch labels).length = labels.length ∧
    (b < numBBs labels →
      (updateBBoxes cropX cropY width height cw ch labels).getD b zeroRow
        = ⟨(labels.getD b zeroRow).label,
           ((labels.getD b zeroRow).xmin - (cropX : ℚ)) * ((width : ℚ) / (cw : ℚ)),
           ((labels.getD b zeroRow).ymin - (cropY : ℚ)) * ((height : ℚ) / (ch : ℚ)),
           ((labels.getD b zeroRow).xmax - (cropX : ℚ)) * ((width : ℚ) / (cw : ℚ)),
           ((labels.getD b zeroRow).ymax - (cropY : ℚ)) * ((height : ℚ) / (ch : ℚ))⟩) ∧
    (b < numBBs labels → (labels.getD b zeroRow).label ≠ -1) ∧
    (numBBs labels ≤ b →
      (updateBBoxes cropX cropY width height cw ch labels).getD b zeroRow
        = labels.getD b zeroRow) := by
  refine ⟨modifyFirst_length _ _ _, ?_, fun hb => numBBs_real labels b hb,
    fun hb => modifyFirst_getD_ge _ _ _ _ _ hb⟩
  intro hb
  have hlen : b < labels.length := lt_of_lt_of_le hb (numBBs_le_length labels)
  simp only [updateBBoxes]
  rw [modifyFirst_getD_lt _ _ _ _ _ hb hlen]
  rfl

theorem C4_remap_all_boxes_witness :
    0 < numBBs twoBoxLabels ∧
    (updateBBoxes 5 5 100 100 10 10 twoBoxLabels).getD 0 zeroRow
      = ⟨1, -50, -50, 50, 50⟩ ∧
    (updateBBoxes 5 5 100 100 10 10 twoBoxLabels).getD 2 zeroRow
      = ⟨-1, 0, 0, 0, 0⟩ := by
  have h0 := C4_remap_all_boxes 5 5 100 100 10 10 twoBoxLabels 0
  have h2 := C4_remap_all_boxes 5 5 100 100 10 10 twoBoxLabels 2
  refine ⟨by decide, ?_, ?_⟩
  · rw [h0.2.1 (by decide)]
    simp only [twoBoxLabels, List.getD_cons_zero, BBRow.mk.injEq]
    norm_num
  · rw [h2.2.2.2 (by decide)]
    rfl

theorem ratTrunc_intCast (n : ℤ) : ratTrunc ((n : ℤ) : ℚ) = n := by
  unfold ratTrunc
  split
  · exact Int.floor_intCast n
  · exact Int.ceil_intCast n

theorem cropWidth_eq_of (width refSize : ℤ) (sz : ℚ) (n : ℤ)
    (h : (width : ℚ) / (refSize : ℚ) * sz = ((n : ℤ) : ℚ)) :
    cropWidth width refSize sz = n := by
  unfold cropWidth
  rw [h, ratTrunc_intCast]

theorem cropWidth_box40_eq : cropWidth 200 50 (bbSize box40) = 160 :=
  cropWidth_eq_of 200 50 _ 160 (by norm_num [bbSize, bbW, bbH, box40])

theorem cropWidth_box50_eq : cropWidth 200 50 (bbSize box50) = 200 :=
  cropWidth_eq_of 200 50 _ 200 (by norm_num [bbSize, bbW, bbH, box50])

/-- C3 (amended): the computed crop dimensions are the integer truncation of
`targetW/referenceSize * size` (the two agree exactly only when that product
is integral); with `referenceSize = 50`, `targetW = targetH = 200` and a
`w = h = 40` box the crop is 160 x 160 with resize scale `5/4`, while a
`w = h = 50` box gives exactly a 200 x 200 crop and scale exactly 1. -/
theorem C3_crop_dims (width refSize : ℤ) (sz : ℚ)
    (h : 0 ≤ (width : ℚ) / (refSize : ℚ) * sz) :
    ((cropWidth width refSize sz : ℚ) ≤ (width : ℚ) / (refSize : ℚ) * sz ∧
      (width : ℚ) / (refSize : ℚ) * sz < (cropWidth width refSize sz : ℚ) + 1) ∧
    cropWidth 200 50 (bbSize box40) = 160 ∧
    cropHeight 200 50 (bbSize box40) = 160 ∧
    xScaling 200 (cropWidth 200 50 (bbSize box40)) = 5 / 4 ∧
    cropWidth 200 50 (bbSize box50) = 200 ∧
    xScaling 200 (cropWidth 200 50 (bbSize box50)) = 1 := by
  refine ⟨?_, cropWidth_box40_eq, cropWidth_box40_eq, ?_, cropWidth_box50_eq, ?_⟩
  · unfold cropWidth ratTrunc
    rw [if_pos h]
    exact ⟨Int.floor_le _, Int.lt_floor_add_one _⟩
  · rw [cropWidth_box40_eq]; norm_num [xScaling]
  · rw [cropWidth_box50_eq]; norm_num [xScaling]

theorem C3_crop_dims_witness :
    ((cropWidth 200 50 40 : ℚ) ≤ ((200 : ℤ) : ℚ) / ((50 : ℤ) : ℚ) * 40 ∧
      ((200 : ℤ) : ℚ) / ((50 : ℤ) : ℚ) * 40 < (cropWidth 200 50 40 : ℚ) + 1) ∧
    cropWidth 200 50 (bbSize box40) = 160 ∧
    cropHeight 200 50 (bbSize box40) = 160 ∧
    xScaling 200 (cropWidth 200 50 (bbSize box40)) = 5 / 4 ∧
    cropWidth 200 50 (bbSize box50) = 200 ∧
    xScaling 200 (cropWidth 200 50 (bbSize box50)) = 1 :=
  C3_crop_dims 200 50 40 (by norm_num)

/-- C3 counterexample: with `referenceSize = 50`, `targetW = targetH = 200`
and the spec's `w = h = 40` box, the code computes a 160 x 160 crop and a
resize scale of `5/4`, not the claimed 200 x 200 crop with scale 1. -/
theorem C3_example_false :
    cropWidth 200 50 (bbSize box40) ≠ 200 ∧
    cropHeight 200 50 (bbSize box40) ≠ 200 ∧
    xScaling 200 (cropWidth 200 50 (bbSize box40)) ≠ 1 := by
  refine ⟨?_, ?_, ?_⟩
  · rw [cropWidth_box40_eq]; decide
  · rw [show cropHeight 200 50 (bbSize box40) = 160 from cropWidth_box40_eq]; decide
  · rw [cropWidth_box40_eq]; norm_num [xScaling]

theorem den_one_intCast (q : ℚ) (h : q.den = 1) : q = ((q.num : ℤ) : ℚ) := by
  conv_lhs => rw [← Rat.num_div_den q]
  rw [h]
  simp

/-- C1 (amended): when the selected box has integral coordinates (integer
`std::stof` values) and the computed crop is at least as large as the box,
every value drawable from the two crop-origin distributions — any integer
between the truncated bounds `int(xmin + w - cropW)` and `int(xmin)` (resp.
`y`) — lies in `[xmin + w - cropW, xmin]` (resp. `[ymin + h - cropH, ymin]`),
and the selected box then lies fully inside the crop window; for fractional
coordinates this fails (see the counterexample). -/
theorem C1_box_inside_crop (width height refSize : ℤ) (r : BBRow) (cropX cropY : ℤ)
    (hxd : r.xmin.den = 1) (hXd : r.xmax.den = 1)
    (hyd : r.ymin.den = 1) (hYd : r.ymax.den = 1)
    (_hcw : bbW r ≤ (cropWidth width refSize (bbSize r) : ℚ))
    (_hch : bbH r ≤ (cropHeight height refSize (bbSize r) : ℚ))
    (hx1 : cropXLo r (cropWidth width refSize (bbSize r)) ≤ cropX)
    (hx2 : cropX ≤ cropXHi r)
    (hy1 : cropYLo r (cropHeight height refSize (bbSize r)) ≤ cropY)
    (hy2 : cropY ≤ cropYHi r) :
    (r.xmin + bbW r - (cropWidth width refSize (bbSize r) : ℚ) ≤ (cropX : ℚ) ∧
      (cropX : ℚ) ≤ r.xmin) ∧
    (r.ymin + bbH r - (cropHeight height refSize (bbSize r) : ℚ) ≤ (cropY : ℚ) ∧
      (cropY : ℚ) ≤ r.ymin) ∧
    r.xmax ≤ (cropX : ℚ) + (cropWidth width refSize (bbSize r) : ℚ) ∧
    r.ymax ≤ (cropY : ℚ) + (cropHeight height refSize (bbSize r) : ℚ) := by
  set cw := cropWidth width refSize (bbSize r) with hcwdef
  set ch := cropHeight height refSize (bbSize r) with hchdef
  obtain ⟨a, ha⟩ : ∃ n : ℤ, r.xmin = (n : ℚ) := ⟨r.xmin.num, den_one_intCast r.xmin hxd⟩
  obtain ⟨A, hA⟩ : ∃ n : ℤ, r.xmax = (n : ℚ) := ⟨r.xmax.num, den_one_intCast r.xmax hXd⟩
  obtain ⟨b, hb⟩ : ∃ n : ℤ, r.ymin = (n : ℚ) := ⟨r.ymin.num, den_one_intCast r.ymin hyd⟩
  obtain ⟨B, hB⟩ : ∃ n : ℤ, r.ymax = (n : ℚ) := ⟨r.ymax.num, den_one_intCast r.ymax hYd⟩
  have hlox : cropXLo r cw = A - cw := by
    simp only [cropXLo, bbW]
    rw [ha, hA,
      show ((a : ℤ) : ℚ) + (((A : ℤ) : ℚ) - ((a : ℤ) : ℚ)) - ((cw : ℤ) : ℚ)
          = ((A - cw : ℤ) : ℚ) by push_cast; ring,
      ratTrunc_intCast]
  have hhix : cropXHi r = a := by
    simp only [cropXHi]
    rw [ha, ratTrunc_intCast]
  have hloy : cropYLo r ch = B - ch := by
    simp only [cropYLo, bbH]
    rw [hb, hB,
      show ((b : ℤ) : ℚ) + (((B : ℤ) : ℚ) - ((b : ℤ) : ℚ)) - ((ch : ℤ) : ℚ)
          = ((B - ch : ℤ) : ℚ) by push_cast; ring,
      ratTrunc_intCast]
  have hhiy : cropYHi r = b := by
    simp only [cropYHi]
    rw [hb, ratTrunc_intCast]
  rw [hlox] at hx1
  rw [hhix] at hx2
  rw [hloy] at hy1
  rw [hhiy] at hy2
  refine ⟨⟨?_, ?_⟩, ⟨?_, ?_⟩, ?_, ?_⟩
  · rw [bbW, ha, hA]
    have h1 : a + (A - a) - cw ≤ cropX := by omega
    exact_mod_cast h1
  · rw [ha]
    exact_mod_cast hx2
  · rw [bbH, hb, hB]
    have h1 : b + (B - b) - ch ≤ cropY := by omega
    exact_mod_cast h1
  · rw [hb]
    exact_mod_cast hy2
  · rw [hA]
    have h1 : A ≤ cropX + cw := by omega
    exact_mod_cast h1
  · rw [hB]
    have h1 : B ≤ cropY + ch := by omega
    exact_mod_cast h1

theorem intBox_cropWidth : cropWidth 100 100 (bbSize intBox) = 5 :=
  cropWidth_eq_of 100 100 _ 5 (by norm_num [bbSize, bbW, bbH, intBox])

theorem intBox_cropXLo : cropXLo intBox (cropWidth 100 100 (bbSize intBox)) = 10 := by
  rw [intBox_cropWidth]
  simp only [cropXLo, bbW]
  rw [show intBox.xmin + (intBox.xmax - intBox.xmin) - (((5 : ℤ) : ℤ) : ℚ)
      = ((10 : ℤ) : ℚ) by norm_num [intBox], ratTrunc_intCast]

theorem intBox_cropXHi : cropXHi intBox = 10 := by
  simp only [cropXHi]
  rw [show intBox.xmin = ((10 : ℤ) : ℚ) by norm_num [intBox], ratTrunc_intCast]

theorem intBox_cropYLo : cropYLo intBox (cropHeight 100 100 (bbSize intBox)) = 10 := by
  rw [show cropHeight 100 100 (bbSize intBox) = 5 from intBox_cropWidth]
  simp only [cropYLo, bbH]
  rw [show intBox.ymin + (intBox.ymax - intBox.ymin) - (((5 : ℤ) : ℤ) : ℚ)
      = ((10 : ℤ) : ℚ) by norm_num [intBox], ratTrunc_intCast]

theorem intBox_cropYHi : cropYHi intBox = 10 := by
  simp only [cropYHi]
  rw [show intBox.ymin = ((10 : ℤ) : ℚ) by norm_num [intBox], ratTrunc_intCast]

theorem C1_box_inside_crop_witness :
    (intBox.xmin + bbW intBox - (cropWidth 100 100 (bbSize intBox) : ℚ) ≤ ((10 : ℤ) : ℚ) ∧
      ((10 : ℤ) : ℚ) ≤ intBox.xmin) ∧
    (intBox.ymin + bbH intBox - (cropHeight 100 100 (bbSize intBox) : ℚ) ≤ ((10 : ℤ) : ℚ) ∧
      ((10 : ℤ) : ℚ) ≤ intBox.ymin) ∧
    intBox.xmax ≤ ((10 : ℤ) : ℚ) + (cropWidth 100 100 (bbSize intBox) : ℚ) ∧
    intBox.ymax ≤ ((10 : ℤ) : ℚ) + (cropHeight 100 100 (bbSize intBox) : ℚ) :=
  C1_box_inside_crop 100 100 100 intBox 10 10 (by decide) (by decide) (by decide) (by decide)
    (by rw [intBox_cropWidth]; norm_num [bbW, intBox])
    (by rw [show cropHeight 100 100 (bbSize intBox) = 5 from intBox_cropWidth]
        norm_num [bbH, intBox])
    (by rw [intBox_cropXLo]) (by rw [intBox_cropXHi])
    (by rw [intBox_cropYLo]) (by rw [intBox_cropYHi])

theorem fracBox_cropWidth : cropWidth 100 100 (bbSize fracBox) = 5 :=
  cropWidth_eq_of 100 100 _ 5 (by norm_num [bbSize, bbW, bbH, fracBox])

/-- C1 counterexample: for the box `[xmin, ymin, xmax, ymax] =
[10.5, 10, 15.5, 15]` with `targetW = targetH = referenceSize = 100`
(`cropW = cropH = 5 ≥ w, h`), the value `cropX = 10` is drawable (both
truncated distribution bounds equal 10), yet `10` is below `xmin + w - cropW
= 10.5`, and the box then sticks out of the crop window: `xmax = 15.5 >
cropX + cropW = 15`.  The claimed interval membership and containment fail. -/
theorem C1_fractional_box_escapes :
    bbW fracBox ≤ (cropWidth 100 100 (bbSize fracBox) : ℚ) ∧
    bbH fracBox ≤ (cropHeight 100 100 (bbSize fracBox) : ℚ) ∧
    cropXLo fracBox (cropWidth 100 100 (bbSize fracBox)) ≤ 10 ∧
    (10 : ℤ) ≤ cropXHi fracBox ∧
    ¬(fracBox.xmin + bbW fracBox - (cropWidth 100 100 (bbSize fracBox) : ℚ)
        ≤ ((10 : ℤ) : ℚ)) ∧
    ¬(fracBox.xmax ≤ ((10 : ℤ) : ℚ) + (cropWidth 100 100 (bbSize fracBox) : ℚ)) := by
  have hch : cropHeight 100 100 (bbSize fracBox) = 5 := fracBox_cropWidth
  refine ⟨?_, ?_, ?_, ?_, ?_, ?_⟩
  · rw [fracBox_cropWidth]; norm_num [bbW, fracBox]
  · rw [hch]; norm_num [bbH, fracBox]
  · rw [fracBox_cropWidth]
    simp only [cropXLo, bbW]
    rw [show fracBox.xmin + (fracBox.xmax - fracBox.xmin) - (((5 : ℤ) : ℤ) : ℚ)
        = (21 / 2 : ℚ) by norm_num [fracBox]]
    rw [ratTrunc, if_pos (by norm_num)]
    norm_num
  · simp only [cropXHi]
    rw [show fracBox.xmin = (21 / 2 : ℚ) from rfl]
    rw [ratTrunc, if_pos (by norm_num)]
    norm_num
  · rw [fracBox_cropWidth]; norm_num [bbW, fracBox]
  · rw [fracBox_cropWidth]; norm_num [fracBox]

/-! ### Cursor bookkeeping -/

theorem mod_succ_wrap (n a : Nat) (h : 0 < n) :
    (a + 1) % n = if a % n = n - 1 then 0 else a % n + 1 := by
  have hd := Nat.div_add_mod a n
  have hm : a % n < n := Nat.mod_lt a h
  by_cases hc : a % n = n - 1
  · rw [if_pos hc]
    have he : a + 1 = n * (a / n + 1) := by
      rw [Nat.mul_add, Nat.mul_one]
      omega
    rw [he, Nat.mul_mod_right]
  · rw [if_neg hc]
    have he : a + 1 = n * (a / n) + (a % n + 1) := by omega
    rw [he, Nat.mul_add_mod]
    exact Nat.mod_eq_of_lt (by omega)

theorem div_succ_wrap (n a : Nat) (h : 0 < n) :
    (a + 1) / n = a / n + if a % n = n - 1 then 1 else 0 := by
  have hd := Nat.div_add_mod a n
  have hm : a % n < n := Nat.mod_lt a h
  by_cases hc : a % n = n - 1
  · rw [if_pos hc]
    have he : a + 1 = n * (a / n + 1) := by
      rw [Nat.mul_add, Nat.mul_one]
      omega
    rw [he, Nat.mul_div_cancel_left _ h]
  · rw [if_neg hc]
    have he : a + 1 = n * (a / n) + (a % n + 1) := by omega
    have hlt : a % n + 1 < n := by omega
    rw [he, Nat.mul_add_div h, Nat.div_eq_of_lt hlt]

/-- C7: during a batch fill over a dataset of `n` records starting from a
cursor below `n`, the cursor advances by exactly one per consumed image
(the indices read are `i₀, i₀+1, ...` reduced modulo `n`), it wraps to `0`
exactly when it reaches `n`, each wrap triggers exactly one reshuffle when
shuffling is enabled and none otherwise, and every index at which a record
is read lies in `[0, n)`. -/
theorem C7_cursor_wraps (n : Nat) (shuf : Bool) (B : Nat) (st : BatchState)
    (hn : 0 < n) (hst : st.iGlobal < n) :
    (loadBatch n shuf B st).iGlobal = (st.iGlobal + B) % n ∧
    (loadBatch n shuf B st).shuffleCount
      = st.shuffleCount + (if shuf then (st.iGlobal + B) / n else 0) ∧
    (loadBatch n shuf B st).reads
      = st.reads ++ (List.range B).map (fun k => (st.iGlobal + k) % n) ∧
    ∀ r ∈ (loadBatch n shuf B st).reads, r ∈ st.reads ∨ r < n := by
  have main : (loadBatch n shuf B st).iGlobal = (st.iGlobal + B) % n ∧
      (loadBatch n shuf B st).shuffleCount
        = st.shuffleCount + (if shuf then (st.iGlobal + B) / n else 0) ∧
      (loadBatch n shuf B st).reads
        = st.reads ++ (List.range B).map (fun k => (st.iGlobal + k) % n) := by
    induction B with
    | zero =>
      refine ⟨?_, ?_, by simp [loadBatch]⟩
      · simp [loadBatch, Nat.mod_eq_of_lt hst]
      · simp [loadBatch, Nat.div_eq_of_lt hst]
    | succ B ih =>
      obtain ⟨ih1, ih2, ih3⟩ := ih
      have hstep : loadBatch n shuf (B + 1) st
          = loadOne n shuf (loadBatch n shuf B st) := by
        simp [loadBatch, Function.iterate_succ_apply']
      have hm : (st.iGlobal + B) % n < n := Nat.mod_lt _ hn
      rw [hstep]
      simp only [loadOne, ih1, ih2, ih3]
      by_cases hc : (st.iGlobal + B) % n = n - 1
      · rw [if_pos (by omega)]
        refine ⟨?_, ?_, ?_⟩
        · show 0 = (st.iGlobal + (B + 1)) % n
          rw [show st.iGlobal + (B + 1) = (st.iGlobal + B) + 1 by omega,
            mod_succ_wrap n _ hn, if_pos hc]
        · show st.shuffleCount + (if shuf then (st.iGlobal + B) / n else 0)
              + (if shuf then 1 else 0)
            = st.shuffleCount + (if shuf then (st.iGlobal + (B + 1)) / n else 0)
          rw [show st.iGlobal + (B + 1) = (st.iGlobal + B) + 1 by omega,
            div_succ_wrap n _ hn, if_pos hc]
          cases shuf <;> simp [Nat.add_assoc]
        · show st.reads ++ (List.range B).map (fun k => (st.iGlobal + k) % n)
              ++ [(st.iGlobal + B) % n]
            = st.reads ++ (List.range (B + 1)).map (fun k => (st.iGlobal + k) % n)
          rw [List.range_succ]
          simp
      · rw [if_neg (by omega)]
        refine ⟨?_, ?_, ?_⟩
        · show (st.iGlobal + B) % n + 1 = (st.iGlobal + (B + 1)) % n
          rw [show st.iGlobal + (B + 1) = (st.iGlobal + B) + 1 by omega,
            mod_succ_wrap n _ hn, if_neg hc]
        · show st.shuffleCount + (if shuf then (st.iGlobal + B) / n else 0)
            = st.shuffleCount + (if shuf then (st.iGlobal + (B + 1)) / n else 0)
          rw [show st.iGlobal + (B + 1) = (st.iGlobal + B) + 1 by omega,
            div_succ_wrap n _ hn, if_neg hc]
          cases shuf <;> simp
        · show st.reads ++ (List.range B).map (fun k => (st.iGlobal + k) % n)
              ++ [(st.iGlobal + B) % n]
            = st.reads ++ (List.range (B + 1)).map (fun k => (st.iGlobal + k) % n)
          rw [List.range_succ]
          simp
  refine ⟨main.1, main.2.1, main.2.2, ?_⟩
  intro r hr
  rw [main.2.2] at hr
  rcases List.mem_append.mp hr with h1 | h2
  · exact Or.inl h1
  · obtain ⟨k, _, rfl⟩ := List.mem_map.mp h2
    exact Or.inr (Nat.mod_lt _ hn)

theorem C7_cursor_wraps_witness :
    (loadBatch 3 true 7 ⟨1, 0, []⟩).iGlobal = 2 ∧
    (loadBatch 3 true 7 ⟨1, 0, []⟩).shuffleCount = 2 ∧
    (loadBatch 3 true 7 ⟨1, 0, []⟩).reads = [1, 2, 0, 1, 2, 0, 1] := by
  have h := C7_cursor_wraps 3 true 7 ⟨1, 0, []⟩ (by decide) (by decide)
  refine ⟨?_, ?_, ?_⟩
  · rw [h.1]
    decide
  · rw [h.2.1]
    decide
  · rw [h.2.2.1]
    decide

/-! ### Shuffling -/

theorem getD_cons_eraseIdx_perm (xs : List α) :
    ∀ (j : Nat) (d : α), j < xs.length → List.Perm (xs.getD j d :: xs.eraseIdx j) xs := by
  induction xs with
  | nil => intro j d h; simp at h
  | cons a l ih =>
    intro j d h
    cases j with
    | zero => simp
    | succ j =>
      simp only [List.getD_cons_succ, List.eraseIdx_cons_succ]
      exact (List.Perm.swap a (l.getD j d) (l.eraseIdx j)).trans
        ((ih j d (by simpa using h)).cons a)

theorem shuffleImages_perm (s : Nat) (l : List α) :
    List.Perm (shuffleImages s l) l := by
  generalize hn : l.length = n
  induction n using Nat.strong_induction_on generalizing s l with
  | _ n ih =>
    cases l with
    | nil => rw [shuffleImages]
    | cons a t =>
      rw [shuffleImages]
      have hj : lcgNext s % (a :: t).length < (a :: t).length :=
        Nat.mod_lt _ (by simp)
      have hlen : ((a :: t).eraseIdx (lcgNext s % (a :: t).length)).length < n := by
        rw [List.length_eraseIdx, if_pos hj]
        simp only [List.length_cons] at hn ⊢
        omega
      exact ((ih _ (by omega) (lcgNext s) _ rfl).cons _).trans
        (getD_cons_eraseIdx_perm (a :: t) _ a hj)

/-- C8: the shuffle (modelled from the spec, as the Fisher-Yates helper lives
outside the repository sources) permutes the record sequence — the output is
a permutation of the input, so the multiset of records is unchanged and no
record content changes — and it is a pure function of the generator seed and
the input sequence, hence deterministic and reproducible for a fixed seed. -/
theorem C8_shuffle_perm_deterministic (s₁ s₂ : Nat)
    (l₁ l₂ : List (String × List BBRow)) (hs : s₁ = s₂) (hl : l₁ = l₂) :
    List.Perm (shuffleImages s₁ l₁) l₁ ∧ shuffleImages s₁ l₁ = shuffleImages s₂ l₂ := by
  subst hs
  subst hl
  exact ⟨shuffleImages_perm s₁ l₁, rfl⟩

theorem C8_shuffle_perm_deterministic_witness :
    List.Perm (shuffleImages 7 [("img1.jpg", emptyAnnot), ("img2.jpg", emptyAnnot)])
      [("img1.jpg", emptyAnnot), ("img2.jpg", emptyAnnot)] ∧
    shuffleImages 7 [("img1.jpg", emptyAnnot), ("img2.jpg", emptyAnnot)]
      = shuffleImages 7 [("img1.jpg", emptyAnnot), ("img2.jpg", emptyAnnot)] :=
  C8_shuffle_perm_deterministic 7 7 _ _ rfl rfl

/-! ### Normalization -/

theorem foldl_update_notmem (key : β → Nat) (val : β → ℚ) (l : List β) :
    ∀ (buf : Nat → ℚ) (k : Nat), (∀ t ∈ l, key t ≠ k) →
    l.foldl (fun b t => Function.update b (key t) (val t)) buf k = buf k := by
  induction l with
  | nil => intro buf k _; rfl
  | cons a l ih =>
    intro buf k h
    rw [List.foldl_cons, ih _ k (fun t ht => h t (List.mem_cons_of_mem a ht))]
    exact Function.update_noteq (Ne.symm (h a (List.mem_cons_self a l))) _ _

theorem foldl_update_mem (key : β → Nat) (val : β → ℚ) (l : List β) :
    ∀ (buf : Nat → ℚ) (k : Nat) (v : ℚ),
    (∃ t ∈ l, key t = k) → (∀ t ∈ l, key t = k → val t = v) →
    l.foldl (fun b t => Function.update b (key t) (val t)) buf k = v := by
  induction l with
  | nil => intro buf k v hex _; simp at hex
  | cons a l ih =>
    intro buf k v hex hval
    rw [List.foldl_cons]
    by_cases hrest : ∃ t ∈ l, key t = k
    · exact ih _ k v hrest (fun t ht => hval t (List.mem_cons_of_mem a ht))
    · have ha : key a = k := by
        rcases hex with ⟨t, ht, hk⟩
        rcases List.mem_cons.mp ht with h1 | h2
        · rw [← h1]; exact hk
        · exact absurd ⟨t, h2, hk⟩ hrest
      have hnot : ∀ t ∈ l, key t ≠ k := fun t ht hk => hrest ⟨t, ht, hk⟩
      rw [foldl_update_notmem key val l _ k hnot, ha, Function.update_same]
      exact hval a (List.mem_cons_self a l) ha

theorem mem_pixelTriples (height width i j c : Nat)
    (hi : i < height) (hj : j < width) (hc : c < 3) :
    (i, j, c) ∈ pixelTriples height width := by
  simp only [pixelTriples, List.mem_flatMap, List.mem_map, List.mem_range]
  exact ⟨i, hi, j, hj, c, hc, rfl⟩

theorem pixelTriples_bounds (height width : Nat) (t : Nat × Nat × Nat)
    (ht : t ∈ pixelTriples height width) :
    t.1 < height ∧ t.2.1 < width ∧ t.2.2 < 3 := by
  simp only [pixelTriples, List.mem_flatMap, List.mem_map, List.mem_range] at ht
  obtain ⟨i, hi, j, hj, c, hc, rfl⟩ := ht
  exact ⟨hi, hj, hc⟩

theorem row_major_inj (w a₁ a₂ j₁ j₂ : Nat) (hj₁ : j₁ < w) (hj₂ : j₂ < w)
    (h : a₁ * w + j₁ = a₂ * w + j₂) : a₁ = a₂ ∧ j₁ = j₂ := by
  have h1 : (a₁ * w + j₁) % w = j₁ := by
    rw [Nat.mul_comm, Nat.mul_add_mod]
    exact Nat.mod_eq_of_lt hj₁
  have h2 : (a₂ * w + j₂) % w = j₂ := by
    rw [Nat.mul_comm, Nat.mul_add_mod]
    exact Nat.mod_eq_of_lt hj₂
  have hj : j₁ = j₂ := by rw [← h1, ← h2, h]
  refine ⟨?_, hj⟩
  subst hj
  have hw : 0 < w := Nat.lt_of_le_of_lt (Nat.zero_le j₁) hj₁
  exact Nat.eq_of_mul_eq_mul_right hw (by omega)

theorem planarIndex_inj (height width i₁ j₁ c₁ i₂ j₂ c₂ : Nat)
    (hi₁ : i₁ < height) (hj₁ : j₁ < width) (hi₂ : i₂ < height) (hj₂ : j₂ < width)
    (heq : planarIndex height width i₁ j₁ c₁ = planarIndex height width i₂ j₂ c₂) :
    i₁ = i₂ ∧ j₁ = j₂ ∧ c₁ = c₂ := by
  unfold planarIndex at heq
  obtain ⟨hrow, hj⟩ := row_major_inj width (c₁ * height + i₁) (c₂ * height + i₂)
    j₁ j₂ hj₁ hj₂ heq
  obtain ⟨hc, hi⟩ := row_major_inj height c₁ c₂ i₁ i₂ hi₁ hi₂ hrow
  exact ⟨hi, hj, hc⟩

/-- C6: normalization is the pure per-channel affine map
`value ↦ (value - 128) / 128` into the planar channel-major buffer position
`(c * height + i) * width + j`, reading byte `3 * j + c` of row `i` of the
interleaved image, independent of image content and identically in the box
branch and the no-box branch; pixel value 0 maps to -1, 128 to 0, and 255 to
`127/128 ≈ 0.9922`. -/
theorem C6_normalization (height width : Nat) (labels : List BBRow)
    (resized cropped : Nat → Nat → Nat) (buf : Nat → ℚ) (i j c : Nat)
    (hi : i < height) (hj : j < width) (hc : c < 3) :
    transformImagePixels height width labels resized cropped buf
        (planarIndex height width i j c)
      = (((if (labels.headD zeroRow).label = -1 then resized else cropped) i (3 * j + c)
            : ℚ) - 128) / 128 ∧
    normalizePixel 0 = -1 ∧ normalizePixel 128 = 0 ∧ normalizePixel 255 = 127 / 128 ∧
    |normalizePixel 255 - 4961 / 5000| < 1 / 1000 := by
  refine ⟨?_, by norm_num [normalizePixel], by norm_num [normalizePixel],
    by norm_num [normalizePixel], ?_⟩
  · unfold transformImagePixels writePixels
    refine foldl_update_mem
      (fun t => planarIndex height width t.1 t.2.1 t.2.2)
      (fun t => normalizePixel
        ((if (labels.headD zeroRow).label = -1 then resized else cropped) t.1
          (3 * t.2.1 + t.2.2)))
      (pixelTriples height width) buf (planarIndex height width i j c) _
      ⟨(i, j, c), mem_pixelTriples height width i j c hi hj hc, rfl⟩ ?_
    intro t ht hk
    obtain ⟨hti, htj, htc⟩ := pixelTriples_bounds height width t ht
    obtain ⟨e1, e2, e3⟩ := planarIndex_inj height width t.1 t.2.1 t.2.2 i j c
      hti htj hi hj hk
    simp only [e1, e2, e3, normalizePixel]
  · rw [show normalizePixel 255 = 127 / 128 by norm_num [normalizePixel],
      show (127 / 128 : ℚ) - 4961 / 5000 = -(1 / 80000) by norm_num, abs_neg,
      abs_of_pos (by norm_num : (0 : ℚ) < 1 / 80000)]
    norm_num

theorem C6_normalization_witness :
    transformImagePixels 2 2 twoBoxLabels (fun _ _ => 0) (fun i k => 10 * i + k)
      (fun _ => 0) (planarIndex 2 2 1 1 2) = -113 / 128 := by
  have h := C6_normalization 2 2 twoBoxLabels (fun _ _ => 0) (fun i k => 10 * i + k)
    (fun _ => 0) 1 1 2 (by decide) (by decide) (by decide)
  rw [h.1]
  norm_num [twoBoxLabels]
